import Mathlib

/-!
# Octra Go SDK: key custody, canonical transaction payload, confirmation wait

A shallow embedding of `client/client.go` and `client/history.go` and the
properties of the keystore codec, amount codec, transaction canonicaliser,
confirmation waiter and wallet statistics.

Go `string`s are modelled as Lean `String`s (valid text), byte slices as lists
of `Fin 256`.  The packages the client imports (`encoding/base64`,
`encoding/json`, `crypto/*`, `golang.org/x/crypto/scrypt`, `strconv`,
`mr-tron/base58`) are not part of the repository: they are taken as a
parameter `Lib`, and the documented contracts a proof relies on are stated as
`Lib.Lawful`.
-/

namespace Octra

/-! ## Data model -/

/-- A Go `[]byte`. -/
abbrev Bytes := List (Fin 256)

/-- How a Go call ends: it returns, or the goroutine panics. -/
inductive Outcome (α : Type) where
  | ret (a : α)
  | panic (msg : String)
deriving DecidableEq

/-- The anonymous struct `Keystore.Crypto`. -/
structure KeystoreCrypto where
  Cipher : String
  CipherText : String
  Salt : String
  Nonce : String

/-- The struct `Keystore` (the zero value has every field empty). -/
structure Keystore where
  Address : String
  Crypto : KeystoreCrypto

/-- The imported packages, as far as `client.go` calls them. -/
structure Lib where
  /-- `base64.StdEncoding.EncodeToString`. -/
  EncodeToString : Bytes → String
  /-- `base64.StdEncoding.DecodeString`: the bytes returned; every caller
  discards the error. -/
  DecodeString : String → Bytes
  /-- `scrypt.Key([]byte(password), salt, 32768, 8, 1, 32)`: the key returned. -/
  scryptKey : String → Bytes → Bytes
  /-- `gcm.Seal(nil, nonce, plaintext, nil)` of AES-GCM under `key`, for a
  nonce of the standard size. -/
  Seal : (key nonce plaintext : Bytes) → Bytes
  /-- `gcm.Open(nil, nonce, ciphertext, nil)` of AES-GCM under `key`, for a
  nonce of the standard size; `none` is the authentication error. -/
  Open : (key nonce ciphertext : Bytes) → Option Bytes
  /-- `ed25519.NewKeyFromSeed(seed).Public()` for a 32-byte seed. -/
  Public : Bytes → Bytes
  /-- `ed25519.Sign(ed25519.NewKeyFromSeed(seed), []byte(raw))`. -/
  Sign : Bytes → String → Bytes
  /-- `sha256.Sum256`. -/
  Sum256 : Bytes → Bytes
  /-- `base58.Encode`. -/
  base58Encode : Bytes → String
  /-- `json.Marshal` of a `Keystore`. -/
  Marshal : Keystore → String
  /-- `json.Unmarshal` into a zero `Keystore`: the value left in it; the caller
  discards the error. -/
  Unmarshal : String → Keystore
  /-- The type `float64`. -/
  F64 : Type
  /-- `strconv.ParseFloat(s, 64)`: the value returned; the caller discards
  the error. -/
  ParseFloat : String → F64
  /-- `strconv.FormatFloat(v, 0x66, -1, 64)` (format byte f). -/
  FormatFloat : F64 → String

/-- The documented contracts of the imported packages that the keystore
round trip rests on. -/
structure Lib.Lawful (lib : Lib) : Prop where
  decode_encode : ∀ b : Bytes, lib.DecodeString (lib.EncodeToString b) = b
  scrypt_len : ∀ (pw : String) (salt : Bytes), (lib.scryptKey pw salt).length = 32
  open_seal : ∀ key nonce pt : Bytes, key.length = 32 → nonce.length = 12 →
    lib.Open key nonce (lib.Seal key nonce pt) = some pt
  unmarshal_marshal : ∀ ks : Keystore, lib.Unmarshal (lib.Marshal ks) = ks

/-! ## Keystore codec -/

/-- `gcm.NonceSize()` of the standard GCM. -/
def NonceSize : Nat := 12

/-- `io.ReadFull(rand.Reader, buf)` on a fresh `make([]byte, n)`: the buffer
afterwards and the rest of the source.  A source that runs short leaves zeros
(the caller discards the error). -/
def ReadFull (src : Bytes) (n : Nat) : Bytes × Bytes :=
  (src.take n ++ List.replicate (n - (src.take n).length) 0, src.drop n)

/-- `aes.NewCipher(key)` followed by `cipher.NewGCM(block)`, errors discarded:
a key that is not an AES key leaves a nil block, on which `NewGCM` panics. -/
def newGCM (key : Bytes) : Outcome Unit :=
  if key.length = 16 ∨ key.length = 24 ∨ key.length = 32 then .ret ()
  else .panic "runtime error: invalid memory address or nil pointer dereference"

/-- `gcm.Seal(nil, nonce, plaintext, nil)`: panics on a nonce of the wrong
length. -/
def gcmSeal (lib : Lib) (key nonce plaintext : Bytes) : Outcome Bytes :=
  if nonce.length ≠ NonceSize then
    .panic "crypto/cipher: incorrect nonce length given to GCM"
  else .ret (lib.Seal key nonce plaintext)

/-- `gcm.Open(nil, nonce, ciphertext, nil)`: panics on a nonce of the wrong
length, otherwise returns the plaintext or an error. -/
def gcmOpen (lib : Lib) (key nonce ciphertext : Bytes) : Outcome (Option Bytes) :=
  if nonce.length ≠ NonceSize then
    .panic "crypto/cipher: incorrect nonce length given to GCM"
  else .ret (lib.Open key nonce ciphertext)

/-- `ed25519.NewKeyFromSeed(seed).Public()`: panics on a seed that is not 32
bytes long. -/
def publicOfSeed (lib : Lib) (seed : Bytes) : Outcome Bytes :=
  if seed.length ≠ 32 then .panic ("ed25519: bad seed length: " ++ Nat.repr seed.length)
  else .ret (lib.Public seed)

/-- `PublicKeyToAddress`. -/
def PublicKeyToAddress (lib : Lib) (publicKey : Bytes) : String :=
  "oct" ++ lib.base58Encode (lib.Sum256 publicKey)

/-- `EncryptWallet`; `rand` is what `rand.Reader` supplies.  The result is the
pair (text, error). -/
def EncryptWallet (lib : Lib) (rand : Bytes) (privateKeyB64 password : String) :
    Outcome (String × Option String) :=
  let seed := lib.DecodeString privateKeyB64
  let salt := ReadFull rand 16
  let key := lib.scryptKey password salt.1
  match newGCM key with
  | .panic m => .panic m
  | .ret _ =>
    let nonce := ReadFull salt.2 NonceSize
    match gcmSeal lib key nonce.1 seed with
    | .panic m => .panic m
    | .ret cipherText =>
      match publicOfSeed lib seed with
      | .panic m => .panic m
      | .ret pub =>
        let ks : Keystore :=
          { Address := PublicKeyToAddress lib pub
            Crypto :=
              { Cipher := "aes-256-gcm"
                CipherText := lib.EncodeToString cipherText
                Salt := lib.EncodeToString salt.1
                Nonce := lib.EncodeToString nonce.1 } }
        .ret (lib.Marshal ks, none)

/-- `DecryptWallet`.  The result is the pair (text, error). -/
def DecryptWallet (lib : Lib) (keystoreJSON password : String) :
    Outcome (String × Option String) :=
  let ks := lib.Unmarshal keystoreJSON
  let salt := lib.DecodeString ks.Crypto.Salt
  let cipherText := lib.DecodeString ks.Crypto.CipherText
  let nonce := lib.DecodeString ks.Crypto.Nonce
  let key := lib.scryptKey password salt
  match newGCM key with
  | .panic m => .panic m
  | .ret _ =>
    match gcmOpen lib key nonce cipherText with
    | .panic m => .panic m
    | .ret none => .ret ("", some "invalid password")
    | .ret (some seed) => .ret (lib.EncodeToString seed, none)

/-! ## Transaction canonicaliser -/

/-- The struct `Transaction`.  `Nonce` is a `uint64` (no arithmetic is done on
it), `Timestamp` a `json.Number`, which is a string type. -/
structure Transaction where
  From : String
  To : String
  Amount : String
  Nonce : Nat
  OU : String
  Timestamp : String

/-- The struct `SignedTransaction`. -/
structure SignedTransaction where
  Signature : String
  PublicKey : String
  Tx : Transaction
  Raw : String

/-- An operand of `fmt.Sprintf`: a `string` or a `uint64`. -/
inductive Arg where
  | str (s : String)
  | uint (n : Nat)

/-- The Go type name of an operand. -/
def Arg.typeName : Arg → String
  | .str _ => "string"
  | .uint _ => "uint64"

/-- The plain text of an operand: a string as it is, an integer in decimal. -/
def Arg.text : Arg → List Char
  | .str s => s.data
  | .uint n => (Nat.repr n).data

/-- What `fmt` writes for the verb `v` applied to the operand `a`: the verb
`s` on a string and `d` on an integer give the plain text; an operand of the
other type gives the bad-verb text `%!v(type=value)`.  Verbs other than `s`
and `d` are outside this model and given the bad-verb text as well. -/
def verbText (v : Char) (a : Arg) : List Char :=
  match v, a with
  | 's', .str s => s.data
  | 'd', .uint n => (Nat.repr n).data
  | _, _ => "%!".data ++ v :: "(".data ++ a.typeName.data ++ "=".data ++ a.text ++ ")".data

/-- The operands left over, as listed inside `%!(EXTRA ...)`. -/
def extraText : List Arg → List Char
  | [] => []
  | [a] => a.typeName.data ++ "=".data ++ a.text
  | a :: b :: as => a.typeName.data ++ "=".data ++ a.text ++ ", ".data ++ extraText (b :: as)

/-- The scan of `fmt.Sprintf` over the format, for formats without flags,
widths or precisions: text is copied, `%%` is a percent sign, any other verb
consumes the next operand. -/
def sprintfChars : List Char → List Arg → List Char
  | [], [] => []
  | [], a :: as => "%!(EXTRA ".data ++ extraText (a :: as) ++ ")".data
  | ['%'], as => "%!(NOVERB)".data ++ sprintfChars [] as
  | '%' :: '%' :: fmt, as => '%' :: sprintfChars fmt as
  | '%' :: v :: fmt, [] => "%!".data ++ v :: "(MISSING)".data ++ sprintfChars fmt []
  | '%' :: v :: fmt, a :: as => verbText v a ++ sprintfChars fmt as
  | c :: fmt, as => c :: sprintfChars fmt as

/-- `fmt.Sprintf(format, a...)`. -/
def Sprintf (format : String) (a : List Arg) : String :=
  String.mk (sprintfChars format.data a)

/-- The format string of the canonical payload in `SignTransaction`. -/
def canonicalFormat : String :=
  "\x7b\"from\":\"%s\",\"to_\":\"%s\",\"amount\":\"%s\",\"nonce\":%d,\"ou\":\"%s\",\"timestamp\":%s\x7d"

/-- `SignTransaction`.  The result is the pair (signed transaction, error). -/
def SignTransaction (lib : Lib) (tx : Transaction) (privateKeyB64 : String) :
    Outcome (SignedTransaction × Option String) :=
  let tx := if tx.OU = "" then { tx with OU := "1000" } else tx
  let tsRaw := tx.Timestamp
  let val := lib.ParseFloat tsRaw
  let cleanTS := lib.FormatFloat val
  let tx := { tx with Timestamp := cleanTS }
  let seed := lib.DecodeString privateKeyB64
  match publicOfSeed lib seed with
  | .panic m => .panic m
  | .ret publicKey =>
    let raw := Sprintf canonicalFormat
      [.str tx.From, .str tx.To, .str tx.Amount, .uint tx.Nonce, .str tx.OU, .str cleanTS]
    let sig := lib.Sign seed raw
    .ret ({ Signature := lib.EncodeToString sig
            PublicKey := lib.EncodeToString publicKey
            Tx := tx
            Raw := raw }, none)

/-- A value stored in the map of `ToMap`. -/
inductive Value where
  | str (s : String)
  | uint64 (n : Nat)
  | number (n : String)
deriving DecidableEq

/-- `SignedTransaction.ToMap`: the map as its list of bindings. -/
def ToMap (s : SignedTransaction) : List (String × Value) :=
  [("from", .str s.Tx.From), ("to_", .str s.Tx.To), ("amount", .str s.Tx.Amount),
   ("nonce", .uint64 s.Tx.Nonce), ("ou", .str s.Tx.OU), ("timestamp", .number s.Tx.Timestamp),
   ("signature", .str s.Signature), ("public_key", .str s.PublicKey)]

/-- `strings.HasPrefix` on the characters. -/
def startsWithChars : List Char → List Char → Bool
  | _, [] => true
  | [], _ :: _ => false
  | c :: s, d :: p => c == d && startsWithChars s p

/-- `strings.Contains` on the characters. -/
def containsChars : List Char → List Char → Bool
  | [], sub => startsWithChars [] sub
  | c :: s, sub => startsWithChars (c :: s) sub || containsChars s sub

/-- `strings.Contains(s, substr)`. -/
def Contains (s substr : String) : Bool := containsChars s.data substr.data

/-- `strings.HasPrefix(s, p)`. -/
def HasPrefix (s p : String) : Bool := startsWithChars s.data p.data

/-- The canonical payload as the specification words it: the six fields in
the fixed order, as one line without whitespace. -/
def canonicalText (F T A : String) (N : Nat) (O TS : String) : String :=
  "\x7b\"from\":\"" ++ F ++ "\",\"to_\":\"" ++ T ++ "\",\"amount\":\"" ++ A ++ "\",\"nonce\":"
    ++ Nat.repr N ++ ",\"ou\":\"" ++ O ++ "\",\"timestamp\":" ++ TS ++ "\x7d"

/-- The `ou` that is signed: the instruction's, or 1000 when it is empty. -/
def effectiveOU (tx : Transaction) : String := if tx.OU = "" then "1000" else tx.OU

/-- The normalised timestamp: `FormatFloat(ParseFloat(tx.Timestamp))`. -/
def cleanTimestamp (lib : Lib) (tx : Transaction) : String :=
  lib.FormatFloat (lib.ParseFloat tx.Timestamp)

/-- The number a list of decimal digit characters stands for. -/
def digitsValue : List Char → Nat
  | [] => 0
  | c :: l => (c.toNat - 48) * 10 ^ l.length + digitsValue l

/-! ## Amount codec

`math/big` floats are binary numbers `mant * 2 ^ exp` of a set precision; every
operation returns the exact result rounded to the precision of the receiver,
to nearest with ties to even.  The model computes with the exact integers. -/

/-- A `float64`. -/
inductive Float64 where
  /-- The number `(-1) ^ neg * mant * 2 ^ exp`, with `mant < 2 ^ 53`. -/
  | finite (neg : Bool) (mant : Nat) (exp : Int)
  | inf (neg : Bool)
  | nan
deriving DecidableEq

/-- The bit length of `n` within `fuel` halvings. -/
def bitLenAux : Nat → Nat → Nat
  | 0, _ => 0
  | fuel + 1, n => if n = 0 then 0 else bitLenAux fuel (n / 2) + 1

/-- `BitLen`: the number of bits of `n`, 0 for 0. -/
def bitLen (n : Nat) : Nat := bitLenAux n n

/-- The integer nearest to `num / den`, ties to even. -/
def roundHalfEven (num den : Nat) : Nat :=
  let q := num / den
  let r := num % den
  if 2 * r < den then q
  else if den < 2 * r then q + 1
  else if q % 2 = 0 then q else q + 1

/-- The integer nearest to `a / (b * 2 ^ e)`, ties to even. -/
def roundScaled (a b : Nat) (e : Int) : Nat :=
  if 0 ≤ e then roundHalfEven a (b * 2 ^ e.toNat) else roundHalfEven (a * 2 ^ (-e).toNat) b

/-- The quotient `a / b` of positive integers rounded to `prec` bits: the
mantissa `m` and exponent `e` of the result `m * 2 ^ e`. -/
def quoRound (prec a b : Nat) : Nat × Int :=
  let e0 : Int := (bitLen a : Int) - (bitLen b : Int) - (prec : Int)
  let e : Int :=
    if 0 ≤ e0 then (if b * 2 ^ e0.toNat * 2 ^ prec ≤ a then e0 + 1 else e0)
    else (if b * 2 ^ prec ≤ a * 2 ^ (-e0).toNat then e0 + 1 else e0)
  (roundScaled a b e, e)

/-- The integer `n` rounded to `prec` bits: the mantissa `m` and exponent `e`
of the result `m * 2 ^ e`. -/
def roundBits (prec n : Nat) : Nat × Nat :=
  if bitLen n ≤ prec then (n, 0)
  else (roundHalfEven n (2 ^ (bitLen n - prec)), bitLen n - prec)

/-- The six-digit fraction: the decimal text of `r` padded with zeros on the
left. -/
def pad6 (r : Nat) : List Char :=
  List.replicate (6 - (Nat.repr r).length) '0' ++ (Nat.repr r).data

/-- `FromAtoms`.  `SetInt` gives the float the precision `max(BitLen, 64)`,
`Quo` by `big.NewFloat(1e6)` rounds the quotient to it, and `Text` with format
byte f and 6 digits rounds the exact decimal expansion to six fractional
digits, ties to even. -/
def FromAtoms (atoms : Int) : String :=
  let a := atoms.natAbs
  let millionths : Nat :=
    if a = 0 then 0
    else
      let f := quoRound (max (bitLen a) 64) a 1000000
      if 0 ≤ f.2 then f.1 * 2 ^ f.2.toNat * 1000000
      else roundHalfEven (f.1 * 1000000) (2 ^ (-f.2).toNat)
  (if atoms < 0 then "-" else "") ++ Nat.repr (millionths / 1000000) ++ "."
    ++ String.mk (pad6 (millionths % 1000000))

/-- `ToAtoms`.  `big.NewFloat` panics on a NaN and has precision 53, `Mul` by
`1e6` rounds the product to 53 bits, `Int` truncates towards zero and leaves
the result 0 for an infinity. -/
def ToAtoms (amount : Float64) : Outcome Int :=
  match amount with
  | .nan => .panic "NewFloat(NaN)"
  | .inf _ => .ret 0
  | .finite neg mant exp =>
    let val := roundBits 53 (mant * 1000000)
    let e : Int := (val.2 : Int) + exp
    let result : Nat := if 0 ≤ e then val.1 * 2 ^ e.toNat else val.1 / 2 ^ (-e).toNat
    .ret (if neg then -(result : Int) else (result : Int))

/-- The `float64` nearest to the positive ratio `a / b`, ties to even, as
`strconv.ParseFloat` returns for a decimal text of that value (exponent range
aside). -/
def nearestFloat64 (a b : Nat) : Float64 :=
  let f := quoRound 53 a b
  .finite false f.1 f.2

/-- The number `mant * 2 ^ exp` is exactly `x / 10 ^ 6`. -/
def isMillionths (mant : Nat) (exp : Int) (x : Nat) : Prop :=
  (0 ≤ exp ∧ mant * 2 ^ exp.toNat * 1000000 = x) ∨
    (exp < 0 ∧ mant * 1000000 = x * 2 ^ (-exp).toNat)

/-! ## Confirmation waiter -/

/-- A value decoded by `json.Unmarshal` into an `interface{}`. -/
inductive JSON where
  | null
  | bool (b : Bool)
  | number (text : String)
  | string (s : String)
  | array (items : List JSON)
  | object (fields : List (String × JSON))

/-- A non-nil `map[string]interface{}`, as its list of bindings. -/
abbrev Record := List (String × JSON)

/-- The errors of a context: `context.Canceled`, `context.DeadlineExceeded`. -/
inductive ContextError where
  | Canceled
  | DeadlineExceeded
deriving DecidableEq

/-- The errors `WaitTransaction` returns: `fmt.Errorf("timeout")` or the
error of the context. -/
inductive WaitError where
  | timeout
  | context (err : ContextError)
deriving DecidableEq

/-- What becomes ready in the `select`: the context is done, or the ticker
fires; `reply` is what `GetTransaction` returns if it is called then: an error
or a map, which may be nil. -/
inductive Signal where
  | done (err : ContextError)
  | tick (reply : Except String (Option Record))

/-- One turn of the loop: the clock reading when it is taken, and the signal
received. -/
structure Event where
  now : Int
  signal : Signal

/-- The pair `WaitTransaction` returns. -/
abbrev WaitResult := Option Record × Option WaitError

/-- The check of a lookup result (lines 238 to 241): the record, if it
counts as confirmed. -/
def confirmedRecord (reply : Except String (Option Record)) : Option Record :=
  match reply with
  | .ok (some tx) =>
    let status : String :=
      match tx.lookup "status" with
      | some (.string s) => s
      | _ => ""
    if status = "confirmed" then some tx
    else
      match tx.lookup "epoch" with
      | some .null => none
      | some _ => some tx
      | none => none
  | _ => none

/-- A run of the loop: the clock readings at which the ledger was polled, and
the clock reading and result of the return, if the loop returned. -/
structure Run where
  polls : List Int
  ended : Option (Int × WaitResult)

/-- The loop of `WaitTransaction` over the events it receives, for the
deadline computed on entry. -/
def waitLoop (deadline : Int) : List Event → Run
  | [] => { polls := [], ended := none }
  | e :: rest =>
    match e.signal with
    | .done err => { polls := [], ended := some (e.now, (none, some (.context err))) }
    | .tick reply =>
      if e.now > deadline then { polls := [], ended := some (e.now, (none, some .timeout)) }
      else
        match confirmedRecord reply with
        | some tx => { polls := [e.now], ended := some (e.now, (some tx, none)) }
        | none =>
          let run := waitLoop deadline rest
          { polls := e.now :: run.polls, ended := run.ended }

/-- `WaitTransaction`: `start` is the clock reading on entry. -/
def WaitTransaction (start timeout : Int) (events : List Event) : Run :=
  waitLoop (start + timeout) events

/-- The confirmation rule as the specification words it: the lookup succeeded
with the record `tx`, and its status field is the string confirmed or it has
an epoch field that is not null. -/
def ConfirmedBySpec (reply : Except String (Option Record)) (tx : Record) : Prop :=
  reply = .ok (some tx) ∧
    (tx.lookup "status" = some (.string "confirmed") ∨
      ∃ v, tx.lookup "epoch" = some v ∧ v ≠ JSON.null)

/-! ## History and statistics (`client/history.go`) -/

/-- The struct `TransactionHistory`. -/
structure TransactionHistory where
  Hash : String
  Epoch : Int
  From : String
  To : String
  Amount : String
  Timestamp : String
  Status : String

/-- The struct `WalletStats`; `TxCount` is a length. -/
structure WalletStats where
  TotalIn : Int
  TotalOut : Int
  TxCount : Nat

/-- An element of `recent_transactions` in the listing of an address. -/
structure RecentTransaction where
  Hash : String
  Epoch : Int

/-- The imported functions `history.go` calls beyond those of `client.go`. -/
structure HistoryLib where
  /-- `strconv.ParseFloat(s, 64)`: the value returned; the caller discards
  the error. -/
  ParseFloat : String → Float64
  /-- `strings.EqualFold`. -/
  EqualFold : String → String → Bool
  /-- `fmt.Sprintf("%v", x)` for a decoded number, array or object. -/
  formatValue : JSON → String

/-- `fmt.Sprintf("%v", m[key])` for the value found under a key of a decoded
object: a missing key and a null are nil, a string is written as it is. -/
def sprintV (lib : HistoryLib) : Option JSON → String
  | none => "<nil>"
  | some .null => "<nil>"
  | some (.string s) => s
  | some (.bool true) => "true"
  | some (.bool false) => "false"
  | some v => lib.formatValue v

/-- The loop of `GetHistory` over the listed references, each with what
`GetTransaction` returns for its hash: a lookup that fails or has no object
under `parsed_tx` is skipped. -/
def historyEntries (lib : HistoryLib) :
    List (RecentTransaction × Except String (Option Record)) → List TransactionHistory
  | [] => []
  | (item, reply) :: rest =>
    match reply with
    | .error _ => historyEntries lib rest
    | .ok txData =>
      match txData.bind fun m => m.lookup "parsed_tx" with
      | some (.object parsed) =>
        { Hash := item.Hash
          Epoch := item.Epoch
          From := sprintV lib (parsed.lookup "from")
          To := sprintV lib (parsed.lookup "to")
          Amount := sprintV lib (parsed.lookup "amount")
          Timestamp := sprintV lib (parsed.lookup "timestamp")
          Status := "confirmed" } :: historyEntries lib rest
      | _ => historyEntries lib rest

/-- `GetHistory`: `listing` is the decoded answer to the request for the
address (an error when the request or its decoding fails), with the lookup
result of each listed hash. -/
def GetHistory (lib : HistoryLib)
    (listing : Except String (List (RecentTransaction × Except String (Option Record)))) :
    Except String (List TransactionHistory) :=
  match listing with
  | .error err => .error err
  | .ok items => .ok (historyEntries lib items)

/-- `unicode.IsSpace`. -/
def isSpace (c : Char) : Bool :=
  let r := c.toNat
  if r ≤ 0xFF then
    r == 0x09 || r == 0x0A || r == 0x0B || r == 0x0C || r == 0x0D || r == 0x20 || r == 0x85
      || r == 0xA0
  else
    r == 0x1680 || (decide (0x2000 ≤ r) && decide (r ≤ 0x200A)) || r == 0x2028 || r == 0x2029
      || r == 0x202F || r == 0x205F || r == 0x3000

/-- The fields of the text still to read; `cur` is the field being read,
last character first. -/
def fieldsChars : List Char → List Char → List (List Char)
  | [], cur => if cur = [] then [] else [cur.reverse]
  | c :: s, cur =>
    if isSpace c then
      (if cur = [] then fieldsChars s [] else cur.reverse :: fieldsChars s [])
    else fieldsChars s (c :: cur)

/-- `strings.Fields`. -/
def Fields (s : String) : List String := (fieldsChars s.data []).map String.mk

/-- The loop of `GetStats` over the history. -/
def statsLoop (lib : HistoryLib) (address : String) :
    List TransactionHistory → WalletStats → Outcome WalletStats
  | [], stats => .ret stats
  | tx :: rest, stats =>
    match Fields tx.Amount with
    | [] => .panic "runtime error: index out of range [0] with length 0"
    | amtStr :: _ =>
      match ToAtoms (lib.ParseFloat amtStr) with
      | .panic m => .panic m
      | .ret amtAtoms =>
        if lib.EqualFold tx.From address then
          statsLoop lib address rest { stats with TotalOut := stats.TotalOut + amtAtoms }
        else if lib.EqualFold tx.To address then
          statsLoop lib address rest { stats with TotalIn := stats.TotalIn + amtAtoms }
        else statsLoop lib address rest stats

/-- `GetStats`; `listing` is what its call of `GetHistory` with limit 50
receives.  The result is the pair (stats, error) as an `Except`. -/
def GetStats (lib : HistoryLib) (address : String)
    (listing : Except String (List (RecentTransaction × Except String (Option Record)))) :
    Outcome (Except String WalletStats) :=
  match GetHistory lib listing with
  | .error err => .ret (.error err)
  | .ok history =>
    match statsLoop lib address history
        { TotalIn := 0, TotalOut := 0, TxCount := history.length } with
    | .panic m => .panic m
    | .ret stats => .ret (.ok stats)

/-! ## A small instance of the packages, for evaluation -/

/-- A stand-in for the functions `history.go` imports: every amount text parses
to the number 1, addresses are compared as they are. -/
def toyHistoryLib : HistoryLib where
  ParseFloat _ := .finite false 1 0
  EqualFold a b := a == b
  formatValue _ := "0"

/-- A listing of one transaction whose `parsed_tx` has the empty text as its
amount. -/
def blankAmountListing : Except String (List (RecentTransaction × Except String (Option Record))) :=
  .ok [(⟨"h1", 7⟩, .ok (some [("parsed_tx", .object
    [("from", .string "octA"), ("to", .string "octB"), ("amount", .string ""),
     ("timestamp", .number "1737273600")])]))]

/-- An instruction whose sender text holds double quotes. -/
def quoteTx1 : Transaction :=
  { From := "a\",\"to_\":\"b", To := "c", Amount := "1", Nonce := 1, OU := "", Timestamp := "1" }

/-- An instruction whose recipient text holds double quotes. -/
def quoteTx2 : Transaction :=
  { From := "a", To := "b\",\"to_\":\"c", Amount := "1", Nonce := 1, OU := "", Timestamp := "1" }

/-- The transaction of `TestOctraSDK_FullFlow` (its sender is a generated
address). -/
def testTx : Transaction :=
  { From := "oct9zV1kqWbFqTzbBzsKJhp4dLr5gVzWfeuQw7PbDVBXCqs"
    To := "octD4RxTBurSjSUp3mdM3eAH4Qo4GyU3Ay29oTez3eWVuWV"
    Amount := "5000000"
    Nonce := 10
    OU := ""
    Timestamp := "1737273600" }

/-- A key text that the stand-in packages decode to 32 bytes. -/
def testKey : String := "0123456789abcdef0123456789abcdef"


/-- Writes each character of `s` behind the tag `t`. -/
def tagField (t : Char) : List Char → List Char
  | [] => []
  | c :: s => t :: c :: tagField t s

/-- Reads back the characters written behind the tag `t`. -/
def untagField (t : Char) : List Char → List Char
  | a :: c :: rest => if a = t then c :: untagField t rest else untagField t rest
  | _ => []

/-- A stand-in for the imported packages: bytes are written as characters, the
cipher is the identity, a keystore is written field by field behind tags. -/
def toyLib : Lib where
  EncodeToString b := String.mk (b.map fun x => Char.ofNat x.val)
  DecodeString s := s.data.map fun c => Fin.ofNat c.toNat
  scryptKey _ _ := List.replicate 32 0
  Seal _ _ pt := pt
  Open _ _ ct := some ct
  Public seed := seed
  Sign seed _ := seed ++ seed
  Sum256 b := b
  base58Encode b := String.mk (b.map fun x => Char.ofNat x.val)
  Marshal ks := String.mk (tagField 'a' ks.Address.data ++ tagField 'c' ks.Crypto.Cipher.data
    ++ tagField 't' ks.Crypto.CipherText.data ++ tagField 's' ks.Crypto.Salt.data
    ++ tagField 'n' ks.Crypto.Nonce.data)
  Unmarshal s :=
    { Address := String.mk (untagField 'a' s.data)
      Crypto :=
        { Cipher := String.mk (untagField 'c' s.data)
          CipherText := String.mk (untagField 't' s.data)
          Salt := String.mk (untagField 's' s.data)
          Nonce := String.mk (untagField 'n' s.data) } }
  F64 := String
  ParseFloat s := s
  FormatFloat s := s

/-! ## Theorems -/

/-! ### Keystore round trip -/

theorem ReadFull_length (src : Bytes) (n : Nat) : (ReadFull src n).1.length = n := by
  simp only [ReadFull, List.length_append, List.length_replicate, List.length_take]
  omega

theorem untagField_tagField_append (t u : Char) (s r : List Char) :
    untagField t (tagField u s ++ r) = (if u = t then s else []) ++ untagField t r := by
  induction s with
  | nil => simp [tagField]
  | cons c s ih =>
    by_cases h : u = t
    · subst h
      simpa [tagField, untagField] using ih
    · simpa [tagField, untagField, h] using ih

theorem untagField_tagField (t u : Char) (s : List Char) :
    untagField t (tagField u s) = if u = t then s else [] := by
  have h := untagField_tagField_append t u s []
  simpa [untagField] using h

theorem toyLib_decode_encode (b : Bytes) :
    toyLib.DecodeString (toyLib.EncodeToString b) = b := by
  simp only [toyLib, List.map_map]
  conv_rhs => rw [← List.map_id b]
  apply List.map_congr_left
  intro x _
  have hx : x.val < 256 := x.isLt
  have hv : (x.val : Nat).isValidChar := Or.inl (by omega)
  apply Fin.ext
  simp only [Function.comp_apply, id_eq, Fin.ofNat, Char.ofNat, hv, dite_true]
  show (x.val : Nat) % 256 = x.val
  omega

theorem toyLib_lawful : toyLib.Lawful where
  decode_encode := toyLib_decode_encode
  scrypt_len := by intro _ _; simp [toyLib]
  open_seal := by intro _ _ _ _ _; rfl
  unmarshal_marshal := by
    intro ks
    obtain ⟨⟨a⟩, ⟨c⟩, ⟨t⟩, ⟨s⟩, ⟨n⟩⟩ := ks
    simp [toyLib, untagField_tagField_append, untagField_tagField]

/-- C1: for every 32-byte seed given as its base64 text, every password and
whatever bytes the random source supplies for the salt and the cipher nonce,
`EncryptWallet` returns a record and no error, and `DecryptWallet` of that
record under the same password returns the same base64 text and no error. -/
theorem decryptWallet_encryptWallet (lib : Lib) (hlib : lib.Lawful) (rand seed : Bytes)
    (hseed : seed.length = 32) (password : String) :
    ∃ record : String,
      EncryptWallet lib rand (lib.EncodeToString seed) password = .ret (record, none) ∧
      DecryptWallet lib record password = .ret (lib.EncodeToString seed, none) := by
  have hkey : ∀ salt : Bytes, newGCM (lib.scryptKey password salt) = .ret () := by
    intro salt
    simp [newGCM, hlib.scrypt_len]
  have hnonce : (ReadFull (ReadFull rand 16).2 12).1.length = 12 :=
    ReadFull_length _ _
  refine ⟨lib.Marshal
    { Address := PublicKeyToAddress lib (lib.Public seed)
      Crypto :=
        { Cipher := "aes-256-gcm"
          CipherText := lib.EncodeToString (lib.Seal (lib.scryptKey password (ReadFull rand 16).1)
            (ReadFull (ReadFull rand 16).2 NonceSize).1 seed)
          Salt := lib.EncodeToString (ReadFull rand 16).1
          Nonce := lib.EncodeToString (ReadFull (ReadFull rand 16).2 NonceSize).1 } }, ?_, ?_⟩
  · simp only [EncryptWallet, hkey, hlib.decode_encode, gcmSeal, publicOfSeed, hseed, hnonce,
      NonceSize, ne_eq, not_true_eq_false, if_false]
  · simp only [DecryptWallet, hlib.unmarshal_marshal, hlib.decode_encode, hkey, gcmOpen, hnonce,
      NonceSize, ne_eq, not_true_eq_false, if_false]
    rw [hlib.open_seal _ _ _ (hlib.scrypt_len _ _) hnonce]

/-- C1 at the stand-in packages, an all-zero seed and the password octra123. -/
theorem decryptWallet_encryptWallet_witness :
    (List.replicate 32 (0 : Fin 256)).length = 32 ∧
    ∃ record : String,
      EncryptWallet toyLib [7, 7, 7] (toyLib.EncodeToString (List.replicate 32 0)) "octra123"
        = .ret (record, none) ∧
      DecryptWallet toyLib record "octra123"
        = .ret (toyLib.EncodeToString (List.replicate 32 0), none) :=
  ⟨by decide, decryptWallet_encryptWallet toyLib toyLib_lawful [7, 7, 7]
    (List.replicate 32 0) (by decide) "octra123"⟩

/-- C6 fails on the code: when the nonce text of the record decodes to
anything but 12 bytes, as for a record that is not JSON at all, `DecryptWallet`
does not return the error invalid password but panics inside `gcm.Open`. -/
theorem decryptWallet_panics_on_bad_nonce (lib : Lib) (keystoreJSON password : String)
    (hkey : ∀ salt : Bytes, (lib.scryptKey password salt).length = 32)
    (hnonce : (lib.DecodeString (lib.Unmarshal keystoreJSON).Crypto.Nonce).length ≠ 12) :
    DecryptWallet lib keystoreJSON password
      = .panic "crypto/cipher: incorrect nonce length given to GCM" := by
  simp [DecryptWallet, newGCM, hkey, gcmOpen, NonceSize, hnonce]

/-- C6 at the stand-in packages and the empty text, which is not a record. -/
theorem decryptWallet_panics_on_bad_nonce_witness :
    (toyLib.DecodeString (toyLib.Unmarshal "").Crypto.Nonce).length ≠ 12 ∧
    DecryptWallet toyLib "" "octra123"
      = .panic "crypto/cipher: incorrect nonce length given to GCM" :=
  ⟨by decide, decryptWallet_panics_on_bad_nonce toyLib "" "octra123"
    (fun _ => rfl) (by decide)⟩

/-! ### Canonical payload -/

theorem sprintf_canonicalFormat (F T A : String) (N : Nat) (O TS : String) :
    Sprintf canonicalFormat [.str F, .str T, .str A, .uint N, .str O, .str TS]
      = canonicalText F T A N O TS := by
  apply String.ext
  simp [Sprintf, canonicalFormat, canonicalText, sprintfChars, verbText, String.data_append]

/-- What `SignTransaction` returns for a key text that decodes to 32 bytes. -/
theorem signTransaction_ret (lib : Lib) (tx : Transaction) (privateKeyB64 : String)
    (hseed : (lib.DecodeString privateKeyB64).length = 32) :
    SignTransaction lib tx privateKeyB64 = .ret (
      { Signature := lib.EncodeToString (lib.Sign (lib.DecodeString privateKeyB64)
          (canonicalText tx.From tx.To tx.Amount tx.Nonce (effectiveOU tx) (cleanTimestamp lib tx)))
        PublicKey := lib.EncodeToString (lib.Public (lib.DecodeString privateKeyB64))
        Tx := { From := tx.From, To := tx.To, Amount := tx.Amount, Nonce := tx.Nonce,
                OU := effectiveOU tx, Timestamp := cleanTimestamp lib tx }
        Raw := canonicalText tx.From tx.To tx.Amount tx.Nonce (effectiveOU tx)
          (cleanTimestamp lib tx) }, none) := by
  by_cases hou : tx.OU = "" <;>
    simp [SignTransaction, publicOfSeed, hseed, hou, effectiveOU, cleanTimestamp,
      sprintf_canonicalFormat]

theorem startsWithChars_append (p r : List Char) : startsWithChars (p ++ r) p = true := by
  induction p with
  | nil => cases r <;> rfl
  | cons c p ih => simp [startsWithChars, ih]

theorem containsChars_of_startsWith (s p : List Char) (h : startsWithChars s p = true) :
    containsChars s p = true := by
  cases s with
  | nil => simpa [containsChars] using h
  | cons c s => simp [containsChars, h]

theorem containsChars_append_left (a s p : List Char) (h : containsChars s p = true) :
    containsChars (a ++ s) p = true := by
  induction a with
  | nil => simpa using h
  | cons c a ih => simp [containsChars, ih]

theorem containsChars_infix (a p r : List Char) : containsChars (a ++ p ++ r) p = true := by
  rw [List.append_assoc]
  exact containsChars_append_left _ _ _
    (containsChars_of_startsWith _ _ (startsWithChars_append p r))

theorem contains_infix (a p r : String) : Contains (a ++ p ++ r) p = true := by
  simp only [Contains, String.data_append]
  exact containsChars_infix _ _ _

theorem mem_of_startsWithChars (s p : List Char) (h : startsWithChars s p = true) :
    ∀ c ∈ p, c ∈ s := by
  induction p generalizing s with
  | nil => intro c hc; cases hc
  | cons d p ih =>
    cases s with
    | nil => simp [startsWithChars] at h
    | cons e s =>
      simp only [startsWithChars, Bool.and_eq_true, beq_iff_eq] at h
      intro c hc
      rcases List.mem_cons.mp hc with hcd | hcp
      · rw [hcd, ← h.1]; exact List.mem_cons_self _ _
      · exact List.mem_cons_of_mem _ (ih s h.2 c hcp)

theorem mem_of_containsChars (s p : List Char) (h : containsChars s p = true) :
    ∀ c ∈ p, c ∈ s := by
  induction s with
  | nil => exact mem_of_startsWithChars _ _ (by simpa [containsChars] using h)
  | cons e s ih =>
    simp only [containsChars, Bool.or_eq_true] at h
    rcases h with h | h
    · exact mem_of_startsWithChars _ _ h
    · intro c hc
      exact List.mem_cons_of_mem _ (ih h c hc)

theorem signTransaction_seed_length (lib : Lib) (tx : Transaction) (privateKeyB64 : String)
    (s : SignedTransaction) (hs : SignTransaction lib tx privateKeyB64 = .ret (s, none)) :
    (lib.DecodeString privateKeyB64).length = 32 := by
  by_contra hlen
  simp [SignTransaction, publicOfSeed, hlen] at hs

theorem signTransaction_raw (lib : Lib) (tx : Transaction) (privateKeyB64 : String)
    (s : SignedTransaction) (hs : SignTransaction lib tx privateKeyB64 = .ret (s, none)) :
    s.Raw = canonicalText s.Tx.From s.Tx.To s.Tx.Amount s.Tx.Nonce s.Tx.OU s.Tx.Timestamp := by
  have hlen := signTransaction_seed_length lib tx privateKeyB64 s hs
  rw [signTransaction_ret lib tx privateKeyB64 hlen] at hs
  injection hs with hs
  injection hs with hs _
  rw [← hs]

/-- C2 as stated fails: the payload of the test transaction contains the
non-empty message text nonce. -/
theorem raw_excludes_message_counterexample :
    ¬ (∀ (lib : Lib) (tx : Transaction) (privateKeyB64 message : String) (s : SignedTransaction),
        message ≠ "" → SignTransaction lib tx privateKeyB64 = .ret (s, none) →
        Contains s.Raw message = false) := by
  intro h
  have h1 := h toyLib testTx testKey "nonce" _ (by decide)
    (signTransaction_ret toyLib testTx testKey (by decide))
  revert h1
  decide

/-- C2, amended: the canonical payload is built from the six signed values
alone, so it does not contain a message that has a character occurring neither
in the format string nor in any of the six values the signed transaction
carries. -/
theorem raw_excludes_message (lib : Lib) (tx : Transaction) (privateKeyB64 message : String)
    (s : SignedTransaction) (c : Char)
    (hs : SignTransaction lib tx privateKeyB64 = .ret (s, none))
    (hc : c ∈ message.data) (hfmt : c ∉ canonicalFormat.data)
    (hF : c ∉ s.Tx.From.data) (hT : c ∉ s.Tx.To.data) (hA : c ∉ s.Tx.Amount.data)
    (hN : c ∉ (Nat.repr s.Tx.Nonce).data) (hO : c ∉ s.Tx.OU.data)
    (hTS : c ∉ s.Tx.Timestamp.data) :
    Contains s.Raw message = false := by
  cases hcon : Contains s.Raw message with
  | false => rfl
  | true =>
    exfalso
    have hmem := mem_of_containsChars _ _ hcon c hc
    rw [signTransaction_raw lib tx privateKeyB64 s hs] at hmem
    simp only [canonicalFormat] at hfmt
    simp only [canonicalText, String.data_append, List.mem_append] at hmem
    simp only [List.mem_cons, not_or] at hfmt
    simp [hF, hT, hA, hN, hO, hTS, hfmt] at hmem

/-- C2, amended, at the test transaction and its message: the space of
Test Debug Message occurs nowhere in the payload. -/
theorem raw_excludes_message_witness :
    ∃ s : SignedTransaction, SignTransaction toyLib testTx testKey = .ret (s, none) ∧
      Contains s.Raw "Test Debug Message" = false :=
  ⟨_, signTransaction_ret toyLib testTx testKey (by decide),
    raw_excludes_message toyLib testTx testKey "Test Debug Message" _ ' '
      (signTransaction_ret toyLib testTx testKey (by decide))
      (by decide) (by decide) (by decide) (by decide) (by decide) (by decide) (by decide)
      (by decide)⟩

/-- C3 fails on the code: the map built by `ToMap` binds no key message,
whatever the signed transaction. -/
theorem toMap_message_absent (s : SignedTransaction) : (ToMap s).lookup "message" = none := by
  rfl

/-- C4: for every instruction and every key text that decodes to a 32-byte
seed, `SignTransaction` returns a signed transaction whose payload is exactly
the canonical one-line text of from, to_, amount, nonce, ou and timestamp, with
the nonce in decimal, the normalised timestamp and the ou defaulted to 1000
when empty; this text is what is signed; and for an empty ou the payload
contains the text "ou":"1000". -/
theorem signTransaction_canonical (lib : Lib) (tx : Transaction) (privateKeyB64 : String)
    (hseed : (lib.DecodeString privateKeyB64).length = 32) :
    ∃ s : SignedTransaction, SignTransaction lib tx privateKeyB64 = .ret (s, none) ∧
      s.Raw = "\x7b\"from\":\"" ++ tx.From ++ "\",\"to_\":\"" ++ tx.To ++ "\",\"amount\":\""
        ++ tx.Amount ++ "\",\"nonce\":" ++ Nat.repr tx.Nonce ++ ",\"ou\":\""
        ++ (if tx.OU = "" then "1000" else tx.OU) ++ "\",\"timestamp\":"
        ++ lib.FormatFloat (lib.ParseFloat tx.Timestamp) ++ "\x7d" ∧
      s.Signature = lib.EncodeToString (lib.Sign (lib.DecodeString privateKeyB64) s.Raw) ∧
      (tx.OU = "" → Contains s.Raw "\"ou\":\"1000\"" = true) := by
  refine ⟨_, signTransaction_ret lib tx privateKeyB64 hseed, rfl, rfl, ?_⟩
  intro hou
  have hsplit : canonicalText tx.From tx.To tx.Amount tx.Nonce (effectiveOU tx)
      (cleanTimestamp lib tx)
      = ("\x7b\"from\":\"" ++ tx.From ++ "\",\"to_\":\"" ++ tx.To ++ "\",\"amount\":\""
          ++ tx.Amount ++ "\",\"nonce\":" ++ Nat.repr tx.Nonce ++ ",")
        ++ "\"ou\":\"1000\""
        ++ (",\"timestamp\":" ++ cleanTimestamp lib tx ++ "\x7d") := by
    apply String.ext
    simp [canonicalText, effectiveOU, hou, String.data_append]
  show Contains (canonicalText tx.From tx.To tx.Amount tx.Nonce (effectiveOU tx)
      (cleanTimestamp lib tx)) "\"ou\":\"1000\"" = true
  rw [hsplit]
  exact contains_infix _ _ _

/-- C4 at the test transaction, whose ou is empty. -/
theorem signTransaction_canonical_witness :
    (toyLib.DecodeString testKey).length = 32 ∧
    ∃ s : SignedTransaction, SignTransaction toyLib testTx testKey = .ret (s, none) ∧
      s.Raw = "\x7b\"from\":\"" ++ testTx.From ++ "\",\"to_\":\"" ++ testTx.To
        ++ "\",\"amount\":\"" ++ testTx.Amount ++ "\",\"nonce\":" ++ Nat.repr testTx.Nonce
        ++ ",\"ou\":\"" ++ (if testTx.OU = "" then "1000" else testTx.OU) ++ "\",\"timestamp\":"
        ++ toyLib.FormatFloat (toyLib.ParseFloat testTx.Timestamp) ++ "\x7d" ∧
      s.Signature = toyLib.EncodeToString (toyLib.Sign (toyLib.DecodeString testKey) s.Raw) ∧
      (testTx.OU = "" → Contains s.Raw "\"ou\":\"1000\"" = true) :=
  ⟨by decide, signTransaction_canonical toyLib testTx testKey (by decide)⟩

/-! ### The payload determines the signed fields -/

theorem digitChar_value (k : Nat) (hk : k < 10) : (Nat.digitChar k).toNat - 48 = k := by
  interval_cases k <;> rfl

theorem digitChar_ne_comma (k : Nat) (hk : k < 10) : Nat.digitChar k ≠ ',' := by
  interval_cases k <;> decide

theorem digitsValue_toDigitsCore (fuel : Nat) : ∀ (n : Nat) (ds : List Char), n < fuel →
    digitsValue (Nat.toDigitsCore 10 fuel n ds) = n * 10 ^ ds.length + digitsValue ds := by
  induction fuel with
  | zero => intro n ds h; omega
  | succ fuel ih =>
    intro n ds h
    have hmod : n % 10 < 10 := Nat.mod_lt _ (by decide)
    have hdm : 10 * (n / 10) + n % 10 = n := Nat.div_add_mod n 10
    simp only [Nat.toDigitsCore]
    split
    · rename_i h0
      simp only [digitsValue, digitChar_value _ hmod]
      have : n % 10 = n := by omega
      rw [this]
    · rename_i h0
      rw [ih _ _ (by omega)]
      simp only [digitsValue, digitChar_value _ hmod, List.length_cons, pow_succ]
      have e : n / 10 * (10 ^ ds.length * 10) + n % 10 * 10 ^ ds.length
          = (10 * (n / 10) + n % 10) * 10 ^ ds.length := by ring
      rw [← Nat.add_assoc, e, hdm]

theorem comma_not_mem_toDigitsCore (fuel : Nat) : ∀ (n : Nat) (ds : List Char), ',' ∉ ds →
    ',' ∉ Nat.toDigitsCore 10 fuel n ds := by
  induction fuel with
  | zero => intro n ds h; simpa [Nat.toDigitsCore] using h
  | succ fuel ih =>
    intro n ds h
    have hmod : n % 10 < 10 := Nat.mod_lt _ (by decide)
    have hd : ',' ∉ Nat.digitChar (n % 10) :: ds := by
      simp only [List.mem_cons, not_or]
      exact ⟨fun e => digitChar_ne_comma _ hmod e.symm, h⟩
    simp only [Nat.toDigitsCore]
    split
    · exact hd
    · exact ih _ _ hd

theorem repr_data (n : Nat) : (Nat.repr n).data = Nat.toDigitsCore 10 (n + 1) n [] := rfl

theorem digitsValue_repr (n : Nat) : digitsValue (Nat.repr n).data = n := by
  rw [repr_data, digitsValue_toDigitsCore _ _ _ (Nat.lt_succ_self n)]
  simp [digitsValue]

theorem comma_not_mem_repr (n : Nat) : ',' ∉ (Nat.repr n).data := by
  rw [repr_data]
  exact comma_not_mem_toDigitsCore _ _ _ (by simp)

/-- Two texts free of `x`, each followed by `x`, are equal when what they
start is equal, and so is what follows. -/
theorem split_at_mark (x : Char) : ∀ (a b r1 r2 : List Char), x ∉ a → x ∉ b →
    a ++ x :: r1 = b ++ x :: r2 → a = b ∧ r1 = r2 := by
  intro a
  induction a with
  | nil =>
    intro b r1 r2 _ hb h
    cases b with
    | nil => simpa using h
    | cons d b =>
      simp only [List.nil_append, List.cons_append, List.cons.injEq] at h
      exact absurd (h.1 ▸ List.mem_cons_self _ _) hb
  | cons c a ih =>
    intro b r1 r2 ha hb h
    cases b with
    | nil =>
      simp only [List.nil_append, List.cons_append, List.cons.injEq] at h
      exact absurd (h.1 ▸ List.mem_cons_self _ _) ha
    | cons d b =>
      simp only [List.cons_append, List.cons.injEq] at h
      have ha2 : x ∉ a := fun hm => ha (List.mem_cons_of_mem _ hm)
      have hb2 : x ∉ b := fun hm => hb (List.mem_cons_of_mem _ hm)
      obtain ⟨e1, e2⟩ := ih b r1 r2 ha2 hb2 h.2
      exact ⟨by rw [h.1, e1], e2⟩

/-- Equal canonical texts of quote-free values have equal values. -/
theorem canonicalText_injective (F T A O TS F2 T2 A2 O2 TS2 : String) (N N2 : Nat)
    (hF : '"' ∉ F.data) (hT : '"' ∉ T.data) (hA : '"' ∉ A.data) (hO : '"' ∉ O.data)
    (hF2 : '"' ∉ F2.data) (hT2 : '"' ∉ T2.data) (hA2 : '"' ∉ A2.data) (hO2 : '"' ∉ O2.data)
    (h : canonicalText F T A N O TS = canonicalText F2 T2 A2 N2 O2 TS2) :
    F = F2 ∧ T = T2 ∧ A = A2 ∧ N = N2 ∧ O = O2 ∧ TS = TS2 := by
  have hd := congrArg String.data h
  simp only [canonicalText, String.data_append, List.append_assoc] at hd
  simp only [List.cons_append, List.nil_append, List.cons.injEq, true_and] at hd
  obtain ⟨eF, hd⟩ := split_at_mark '"' _ _ _ _ hF hF2 hd
  simp only [List.cons_append, List.nil_append, List.cons.injEq, true_and] at hd
  obtain ⟨eT, hd⟩ := split_at_mark '"' _ _ _ _ hT hT2 hd
  simp only [List.cons_append, List.nil_append, List.cons.injEq, true_and] at hd
  obtain ⟨eA, hd⟩ := split_at_mark '"' _ _ _ _ hA hA2 hd
  simp only [List.cons_append, List.nil_append, List.cons.injEq, true_and] at hd
  obtain ⟨eN, hd⟩ := split_at_mark ',' _ _ _ _ (comma_not_mem_repr N) (comma_not_mem_repr N2) hd
  simp only [List.cons_append, List.nil_append, List.cons.injEq, true_and] at hd
  obtain ⟨eO, hd⟩ := split_at_mark '"' _ _ _ _ hO hO2 hd
  simp only [List.cons_append, List.nil_append, List.cons.injEq, true_and] at hd
  have eTS := List.append_cancel_right hd
  have eN2 : N = N2 := by
    rw [← digitsValue_repr N, ← digitsValue_repr N2, eN]
  exact ⟨String.ext eF, String.ext eT, String.ext eA, eN2, String.ext eO, String.ext eTS⟩

/-- C5 as stated fails: two instructions with different senders and recipients
whose texts hold double quotes get the same canonical payload. -/
theorem raw_determines_fields_counterexample :
    ¬ (∀ (lib : Lib) (tx1 tx2 : Transaction) (key1 key2 : String) (s1 s2 : SignedTransaction),
        SignTransaction lib tx1 key1 = .ret (s1, none) →
        SignTransaction lib tx2 key2 = .ret (s2, none) → s1.Raw = s2.Raw →
        tx1.From = tx2.From ∧ tx1.To = tx2.To ∧ tx1.Amount = tx2.Amount ∧
          tx1.Nonce = tx2.Nonce ∧ effectiveOU tx1 = effectiveOU tx2 ∧
          cleanTimestamp lib tx1 = cleanTimestamp lib tx2) := by
  intro h
  have h1 := h toyLib quoteTx1 quoteTx2 testKey testKey _ _
    (signTransaction_ret toyLib quoteTx1 testKey (by decide))
    (signTransaction_ret toyLib quoteTx2 testKey (by decide)) (by decide)
  exact absurd h1.1 (by decide)

/-- C5, amended: for two instructions whose from, to, amount and effective ou
hold no double quote, equal canonical payloads mean equal from, to, amount,
nonce, effective ou and normalised timestamp. -/
theorem raw_determines_fields (lib : Lib) (tx1 tx2 : Transaction) (key1 key2 : String)
    (s1 s2 : SignedTransaction)
    (h1 : SignTransaction lib tx1 key1 = .ret (s1, none))
    (h2 : SignTransaction lib tx2 key2 = .ret (s2, none))
    (hF1 : '"' ∉ tx1.From.data) (hT1 : '"' ∉ tx1.To.data) (hA1 : '"' ∉ tx1.Amount.data)
    (hO1 : '"' ∉ (effectiveOU tx1).data)
    (hF2 : '"' ∉ tx2.From.data) (hT2 : '"' ∉ tx2.To.data) (hA2 : '"' ∉ tx2.Amount.data)
    (hO2 : '"' ∉ (effectiveOU tx2).data)
    (hraw : s1.Raw = s2.Raw) :
    tx1.From = tx2.From ∧ tx1.To = tx2.To ∧ tx1.Amount = tx2.Amount ∧
      tx1.Nonce = tx2.Nonce ∧ effectiveOU tx1 = effectiveOU tx2 ∧
      cleanTimestamp lib tx1 = cleanTimestamp lib tx2 := by
  rw [signTransaction_ret lib tx1 key1 (signTransaction_seed_length lib tx1 key1 s1 h1)] at h1
  rw [signTransaction_ret lib tx2 key2 (signTransaction_seed_length lib tx2 key2 s2 h2)] at h2
  injection h1 with h1
  injection h1 with h1 _
  injection h2 with h2
  injection h2 with h2 _
  rw [← h1, ← h2] at hraw
  exact canonicalText_injective _ _ _ _ _ _ _ _ _ _ _ _ hF1 hT1 hA1 hO1 hF2 hT2 hA2 hO2 hraw

/-- C5, amended, at the test transaction and the same transaction with its ou
written out: the payloads are equal and so are the signed values. -/
theorem raw_determines_fields_witness :
    testTx.From = ({ testTx with OU := "1000" } : Transaction).From ∧
    testTx.To = ({ testTx with OU := "1000" } : Transaction).To ∧
    testTx.Amount = ({ testTx with OU := "1000" } : Transaction).Amount ∧
    testTx.Nonce = ({ testTx with OU := "1000" } : Transaction).Nonce ∧
    effectiveOU testTx = effectiveOU { testTx with OU := "1000" } ∧
    cleanTimestamp toyLib testTx = cleanTimestamp toyLib { testTx with OU := "1000" } :=
  raw_determines_fields toyLib testTx { testTx with OU := "1000" } testKey testKey _ _
    (signTransaction_ret toyLib testTx testKey (by decide))
    (signTransaction_ret toyLib _ testKey (by decide))
    (by decide) (by decide) (by decide) (by decide) (by decide) (by decide) (by decide)
    (by decide) rfl

/-! ### Broadcast form -/

/-- C10: for every instruction and key text that decodes to a 32-byte seed,
the from, to_, amount, nonce, ou and timestamp values of the map of the signed
transaction, written into the canonical format in the fixed order, give exactly
the payload that was signed; the ou of the map is the defaulted one and the
timestamp the normalised one. -/
theorem toMap_agrees_with_raw (lib : Lib) (tx : Transaction) (privateKeyB64 : String)
    (hseed : (lib.DecodeString privateKeyB64).length = 32) :
    ∃ (s : SignedTransaction) (F T A O TS : String) (N : Nat),
      SignTransaction lib tx privateKeyB64 = .ret (s, none) ∧
      (ToMap s).lookup "from" = some (.str F) ∧ (ToMap s).lookup "to_" = some (.str T) ∧
      (ToMap s).lookup "amount" = some (.str A) ∧ (ToMap s).lookup "nonce" = some (.uint64 N) ∧
      (ToMap s).lookup "ou" = some (.str O) ∧ (ToMap s).lookup "timestamp" = some (.number TS) ∧
      Sprintf canonicalFormat [.str F, .str T, .str A, .uint N, .str O, .str TS] = s.Raw ∧
      s.Signature = lib.EncodeToString (lib.Sign (lib.DecodeString privateKeyB64) s.Raw) ∧
      O = (if tx.OU = "" then "1000" else tx.OU) ∧
      TS = lib.FormatFloat (lib.ParseFloat tx.Timestamp) :=
  ⟨_, _, _, _, _, _, _, signTransaction_ret lib tx privateKeyB64 hseed, rfl, rfl, rfl, rfl, rfl,
    rfl, sprintf_canonicalFormat _ _ _ _ _ _, rfl, rfl, rfl⟩

/-- C10 at the test transaction. -/
theorem toMap_agrees_with_raw_witness :
    (toyLib.DecodeString testKey).length = 32 ∧
    ∃ (s : SignedTransaction) (F T A O TS : String) (N : Nat),
      SignTransaction toyLib testTx testKey = .ret (s, none) ∧
      (ToMap s).lookup "from" = some (.str F) ∧ (ToMap s).lookup "to_" = some (.str T) ∧
      (ToMap s).lookup "amount" = some (.str A) ∧ (ToMap s).lookup "nonce" = some (.uint64 N) ∧
      (ToMap s).lookup "ou" = some (.str O) ∧ (ToMap s).lookup "timestamp" = some (.number TS) ∧
      Sprintf canonicalFormat [.str F, .str T, .str A, .uint N, .str O, .str TS] = s.Raw ∧
      s.Signature = toyLib.EncodeToString (toyLib.Sign (toyLib.DecodeString testKey) s.Raw) ∧
      O = (if testTx.OU = "" then "1000" else testTx.OU) ∧
      TS = toyLib.FormatFloat (toyLib.ParseFloat testTx.Timestamp) :=
  ⟨by decide, toMap_agrees_with_raw toyLib testTx testKey (by decide)⟩

/-! ### Amount codec -/

theorem roundHalfEven_bounds (num den : Nat) (hden : 0 < den) :
    2 * (den * roundHalfEven num den) ≤ 2 * num + den ∧
    2 * num ≤ 2 * (den * roundHalfEven num den) + den := by
  have hdm : den * (num / den) + num % den = num := Nat.div_add_mod num den
  have hr : num % den < den := Nat.mod_lt _ hden
  have hs : den * (num / den + 1) = den * (num / den) + den := Nat.mul_succ _ _
  simp only [roundHalfEven]
  generalize num / den = q at *
  generalize num % den = r at *
  generalize hP : den * q = P at *
  split_ifs <;> (try rw [hs]) <;> (try rw [hP]) <;> omega

theorem roundHalfEven_eq (num den x : Nat) (hden : 0 < den)
    (h1 : 2 * num < 2 * (den * x) + den) (h2 : 2 * (den * x) < 2 * num + den) :
    roundHalfEven num den = x := by
  obtain ⟨b1, b2⟩ := roundHalfEven_bounds num den hden
  have hlt : den * roundHalfEven num den < den * (x + 1) := by
    rw [Nat.mul_succ]; omega
  have hgt : den * x < den * (roundHalfEven num den + 1) := by
    rw [Nat.mul_succ]; omega
  have l1 := Nat.lt_of_mul_lt_mul_left hlt
  have l2 := Nat.lt_of_mul_lt_mul_left hgt
  omega

theorem bitLenAux_le (fuel : Nat) : ∀ n k : Nat, n < 2 ^ k → bitLenAux fuel n ≤ k := by
  induction fuel with
  | zero => intro n k _; simp [bitLenAux]
  | succ fuel ih =>
    intro n k h
    simp only [bitLenAux]
    split
    · exact Nat.zero_le _
    · rename_i hn
      cases k with
      | zero => simp at h; exact absurd h hn
      | succ k =>
        have : n / 2 < 2 ^ k := by
          rw [pow_succ] at h
          omega
        exact Nat.succ_le_succ (ih _ _ this)

theorem bitLen_le (n k : Nat) (h : n < 2 ^ k) : bitLen n ≤ k := bitLenAux_le n n k h

theorem quoRound_exp_le (prec a b : Nat) :
    (quoRound prec a b).2 ≤ (bitLen a : Int) - (bitLen b : Int) - (prec : Int) + 1 := by
  simp only [quoRound]
  split_ifs <;> omega

theorem fromAtoms_millionths (x : Nat) (hx : x < 2 ^ 63) :
    (if 0 ≤ (quoRound (max (bitLen x) 64) x 1000000).2 then
        (quoRound (max (bitLen x) 64) x 1000000).1
          * 2 ^ (quoRound (max (bitLen x) 64) x 1000000).2.toNat * 1000000
      else roundHalfEven ((quoRound (max (bitLen x) 64) x 1000000).1 * 1000000)
        (2 ^ (-(quoRound (max (bitLen x) 64) x 1000000).2).toNat)) = x := by
  have hb : bitLen x ≤ 63 := bitLen_le x 63 hx
  have hmax : max (bitLen x) 64 = 64 := Nat.max_eq_right (by omega)
  rw [hmax]
  have he := quoRound_exp_le 64 x 1000000
  have h20 : bitLen 1000000 = 20 := by decide
  rw [h20] at he
  have hm : (quoRound 64 x 1000000).1 = roundScaled x 1000000 (quoRound 64 x 1000000).2 := rfl
  generalize (quoRound 64 x 1000000).2 = e at *
  generalize (quoRound 64 x 1000000).1 = m at *
  have hneg : ¬ (0 ≤ e) := by omega
  obtain ⟨k, hk⟩ : ∃ k : Nat, e = -(k : Int) := ⟨(-e).toNat, by omega⟩
  subst hk
  have hk20 : 20 ≤ k := by omega
  simp only [roundScaled, hneg, if_false, neg_neg, Int.toNat_ofNat] at hm ⊢
  have hpow : 2 ^ 20 ≤ 2 ^ k := Nat.pow_le_pow_right (by decide) hk20
  have hpos : 0 < 2 ^ k := Nat.pos_pow_of_pos _ (by decide)
  obtain ⟨b1, b2⟩ := roundHalfEven_bounds (x * 2 ^ k) 1000000 (by decide)
  rw [← hm] at b1 b2
  apply roundHalfEven_eq _ _ _ hpos
  · have e1 : 2 ^ k * x = x * 2 ^ k := Nat.mul_comm _ _
    have e2 : 1000000 * m = m * 1000000 := Nat.mul_comm _ _
    rw [e1]; rw [e2] at b1
    norm_num at hpow
    omega
  · have e1 : 2 ^ k * x = x * 2 ^ k := Nat.mul_comm _ _
    have e2 : 1000000 * m = m * 1000000 := Nat.mul_comm _ _
    rw [e1]; rw [e2] at b2
    norm_num at hpow
    omega

theorem digitChar_isDigit (k : Nat) (hk : k < 10) : (Nat.digitChar k).isDigit = true := by
  interval_cases k <;> rfl

theorem isDigit_toDigitsCore (fuel : Nat) : ∀ (n : Nat) (ds : List Char),
    (∀ c ∈ ds, c.isDigit = true) → ∀ c ∈ Nat.toDigitsCore 10 fuel n ds, c.isDigit = true := by
  induction fuel with
  | zero => intro n ds h; simpa [Nat.toDigitsCore] using h
  | succ fuel ih =>
    intro n ds h
    have hmod : n % 10 < 10 := Nat.mod_lt _ (by decide)
    have hd : ∀ c ∈ Nat.digitChar (n % 10) :: ds, c.isDigit = true := by
      intro c hc
      rcases List.mem_cons.mp hc with hc | hc
      · rw [hc]; exact digitChar_isDigit _ hmod
      · exact h c hc
    simp only [Nat.toDigitsCore]
    split
    · exact hd
    · exact ih _ _ hd

theorem isDigit_repr (n : Nat) : ∀ c ∈ (Nat.repr n).data, c.isDigit = true := by
  rw [repr_data]
  exact isDigit_toDigitsCore _ _ _ (by simp)

theorem digitsValue_zeros (k : Nat) (l : List Char) :
    digitsValue (List.replicate k '0' ++ l) = digitsValue l := by
  induction k with
  | zero => simp
  | succ k ih =>
    simp only [List.replicate_succ, List.cons_append, digitsValue]
    have : ('0' : Char).toNat - 48 = 0 := by decide
    rw [this]; simpa using ih

theorem pad6_spec (r : Nat) (hr : r < 1000000) :
    (pad6 r).length = 6 ∧ (∀ c ∈ pad6 r, c.isDigit = true) ∧ digitsValue (pad6 r) = r := by
  have hlen : (Nat.repr r).length ≤ 6 := Nat.repr_length r 6 (by decide) (by norm_num; exact hr)
  have hlen2 : (Nat.repr r).data.length ≤ 6 := hlen
  refine ⟨?_, ?_, ?_⟩
  · simp only [pad6, List.length_append, List.length_replicate, String.length]
    omega
  · intro c hc
    simp only [pad6, List.mem_append] at hc
    rcases hc with hc | hc
    · rw [(List.mem_replicate.mp hc).2]; rfl
    · exact isDigit_repr r c hc
  · simp only [pad6, digitsValue_zeros, digitsValue_repr]

theorem fromAtoms_text (x : Nat) (hx : x < 2 ^ 63) :
    FromAtoms (x : Int)
      = Nat.repr (x / 1000000) ++ "." ++ String.mk (pad6 (x % 1000000)) := by
  have hm := fromAtoms_millionths x hx
  have hnn : ¬ ((x : Int) < 0) := by omega
  simp only [FromAtoms, Int.natAbs_ofNat, hnn, if_false]
  by_cases h0 : x = 0
  · subst h0; rfl
  · simp only [h0, if_false]
    rw [hm]
    apply String.ext
    simp [String.data_append]

theorem toAtoms_exact (mant : Nat) (exp : Int) (x : Nat) (hx : x < 2 ^ 53)
    (h : isMillionths mant exp x) : ToAtoms (.finite false mant exp) = .ret (x : Int) := by
  rcases h with ⟨hexp, h⟩ | ⟨hexp, h⟩
  · obtain ⟨k, hk⟩ : ∃ k : Nat, exp = (k : Int) := ⟨exp.toNat, by omega⟩
    subst hk
    simp only [Int.toNat_ofNat] at h
    have hpos : 0 < 2 ^ k := Nat.pos_pow_of_pos _ (by decide)
    have hle : mant * 1000000 ≤ x := by
      have e : mant * 2 ^ k * 1000000 = mant * 1000000 * 2 ^ k := by ring
      rw [e] at h
      calc mant * 1000000 = mant * 1000000 * 1 := (Nat.mul_one _).symm
        _ ≤ mant * 1000000 * 2 ^ k := Nat.mul_le_mul_left _ hpos
        _ = x := h
    have hb : bitLen (mant * 1000000) ≤ 53 := bitLen_le _ _ (lt_of_le_of_lt hle hx)
    have he : (0 : Int) ≤ ((0 : Nat) : Int) + (k : Int) := by omega
    simp only [ToAtoms, roundBits, hb, if_true, he, Bool.false_eq_true, if_false]
    have e2 : (((0 : Nat) : Int) + (k : Int)).toNat = k := by omega
    rw [e2]
    congr 1
    have e : mant * 2 ^ k * 1000000 = mant * 1000000 * 2 ^ k := by ring
    rw [← h, e]
  · obtain ⟨k, hk⟩ : ∃ k : Nat, exp = -(k : Int) := ⟨(-exp).toNat, by omega⟩
    subst hk
    simp only [neg_neg, Int.toNat_ofNat] at h
    have hpos : 0 < 2 ^ k := Nat.pos_pow_of_pos _ (by decide)
    simp only [ToAtoms, roundBits, Bool.false_eq_true, if_false]
    rw [h]
    split
    · have he : ¬ ((0 : Int) ≤ ((0 : Nat) : Int) + -(k : Int)) := by omega
      have e2 : (-(((0 : Nat) : Int) + -(k : Int))).toNat = k := by omega
      simp only [he, if_false, e2]
      rw [Nat.mul_div_cancel _ hpos]
    · rename_i hbig
      have hbl : bitLen (x * 2 ^ k) ≤ 53 + k := by
        apply bitLen_le
        rw [pow_add]
        exact Nat.mul_lt_mul_of_pos_right hx hpos
      generalize hs : bitLen (x * 2 ^ k) - 53 = s
      have hsk : s ≤ k := by omega
      obtain ⟨d, hd⟩ : ∃ d, k = s + d := ⟨k - s, by omega⟩
      subst hd
      have hposs : 0 < 2 ^ s := Nat.pos_pow_of_pos _ (by decide)
      have hposd : 0 < 2 ^ d := Nat.pos_pow_of_pos _ (by decide)
      have hprod : x * 2 ^ (s + d) = 2 ^ s * (x * 2 ^ d) := by rw [pow_add]; ring
      have hr : roundHalfEven (x * 2 ^ (s + d)) (2 ^ s) = x * 2 ^ d := by
        apply roundHalfEven_eq _ _ _ hposs <;> rw [hprod] <;> omega
      rw [hr]
      show Outcome.ret (((if (0 : Int) ≤ (s : Int) + -((s + d : Nat) : Int)
        then x * 2 ^ d * 2 ^ ((s : Int) + -((s + d : Nat) : Int)).toNat
        else x * 2 ^ d / 2 ^ (-((s : Int) + -((s + d : Nat) : Int))).toNat : Nat) : Int))
        = Outcome.ret (x : Int)
      congr 2
      split
      · rename_i hz
        have hd0 : d = 0 := by omega
        subst hd0
        have : ((s : Int) + -((s + 0 : Nat) : Int)).toNat = 0 := by omega
        rw [this]; simp
      · have : (-((s : Int) + -((s + d : Nat) : Int))).toNat = d := by omega
        rw [this, Nat.mul_div_cancel _ hposd]

/-- `FromAtoms` is exact: for every atom count x below 2 ^ 63 it gives the
decimal text of x / 10 ^ 6 with exactly six fractional digits. -/
theorem fromAtoms_six_digits (x : Nat) (hx : x < 2 ^ 63) :
    ∃ frac : List Char, frac.length = 6 ∧ (∀ c ∈ frac, c.isDigit = true) ∧
      digitsValue frac = x % 1000000 ∧
      FromAtoms (x : Int) = Nat.repr (x / 1000000) ++ "." ++ String.mk frac := by
  obtain ⟨p1, p2, p3⟩ := pad6_spec (x % 1000000) (Nat.mod_lt _ (by decide))
  exact ⟨pad6 (x % 1000000), p1, p2, p3, fromAtoms_text x hx⟩

/-- The values of `TestAtomsConversion`: `ToAtoms` of 1.25, which is
5 * 2 ^ -2, is 1250000, and `FromAtoms` of 1250000 starts with 1.25. -/
theorem atomsConversion_test_values :
    ToAtoms (.finite false 5 (-2)) = .ret 1250000 ∧
    HasPrefix (FromAtoms 1250000) "1.25" = true := by
  decide

/-- C7 fails on the code: `FromAtoms` of 249 atoms is the text 0.000249, the
`float64` nearest to 0.000249 is 4593239274353678 * 2 ^ -64, and `ToAtoms` of
that `float64` is 248, one atom short: the `float64` lies just below 0.000249,
its product with 1e6 rounded to 53 bits is 8760908650119167 * 2 ^ -45, just
below 249, and `Int` truncates it. -/
theorem toAtoms_fromAtoms_loses_atom :
    FromAtoms 249 = "0.000249" ∧
    nearestFloat64 249 1000000 = .finite false 4593239274353678 (-64) ∧
    roundBits 53 (4593239274353678 * 1000000) = (8760908650119167, 19) ∧
    ToAtoms (.finite false 4593239274353678 (-64)) = .ret 248 := by
  decide

/-! ### Confirmation waiter -/

theorem confirmedRecord_eq_some_iff (reply : Except String (Option Record)) (tx : Record) :
    confirmedRecord reply = some tx ↔ ConfirmedBySpec reply tx := by
  unfold ConfirmedBySpec
  rcases reply with err | (_ | rec)
  · simp [confirmedRecord]
  · simp [confirmedRecord]
  · simp only [confirmedRecord, Except.ok.injEq, Option.some.injEq]
    constructor
    · intro h
      split at h
      · rename_i hst
        simp only [Option.some.injEq] at h
        subst h
        refine ⟨rfl, Or.inl ?_⟩
        split at hst
        · rename_i s hs
          rw [hs, hst]
        · exact absurd hst (by decide)
      · split at h
        · exact absurd h (by simp)
        · rename_i v hne hv
          simp only [Option.some.injEq] at h
          subst h
          exact ⟨rfl, Or.inr ⟨v, hv, hne⟩⟩
        · exact absurd h (by simp)
    · rintro ⟨rfl, h⟩
      rcases h with h | ⟨v, hv, hne⟩
      · simp [h]
      · split
        · rfl
        · rw [hv]
          split
          · rename_i heq
            simp only [Option.some.injEq] at heq
            exact absurd heq hne
          · rfl
          · rename_i heq
            exact absurd heq (by simp)

theorem confirmedRecord_eq_none (reply : Except String (Option Record))
    (h : ∀ tx, ¬ ConfirmedBySpec reply tx) : confirmedRecord reply = none := by
  cases hc : confirmedRecord reply with
  | none => rfl
  | some tx => exact absurd ((confirmedRecord_eq_some_iff reply tx).mp hc) (h tx)

/-- C8: at a tick whose clock reading is not after the deadline,
`WaitTransaction` returns the looked-up record, with no error, exactly when the
lookup succeeded and the status of the record is the string confirmed or its
epoch is present and not null; then the run ends at that poll, and in every
other case, a lookup error included, the poll is made and the run goes on with
the events that follow. -/
theorem waitTransaction_poll (start timeout now : Int)
    (reply : Except String (Option Record)) (rest : List Event)
    (hbefore : ¬ now > start + timeout) :
    (∀ tx : Record,
      (WaitTransaction start timeout [⟨now, .tick reply⟩]).ended = some (now, (some tx, none))
        ↔ ConfirmedBySpec reply tx) ∧
    (∀ tx : Record, ConfirmedBySpec reply tx →
      WaitTransaction start timeout (⟨now, .tick reply⟩ :: rest)
        = { polls := [now], ended := some (now, (some tx, none)) }) ∧
    ((∀ tx : Record, ¬ ConfirmedBySpec reply tx) →
      WaitTransaction start timeout (⟨now, .tick reply⟩ :: rest)
        = { polls := now :: (WaitTransaction start timeout rest).polls
            ended := (WaitTransaction start timeout rest).ended }) := by
  refine ⟨fun tx => ?_, fun tx h => ?_, fun h => ?_⟩
  · rw [← confirmedRecord_eq_some_iff]
    cases hc : confirmedRecord reply with
    | none => simp [WaitTransaction, waitLoop, hbefore, hc]
    | some tx2 => simp [WaitTransaction, waitLoop, hbefore, hc]
  · have hc := (confirmedRecord_eq_some_iff reply tx).mpr h
    simp [WaitTransaction, waitLoop, hbefore, hc]
  · have hc := confirmedRecord_eq_none reply h
    simp [WaitTransaction, waitLoop, hbefore, hc]

/-- C8 at a poll that finds an epoch, before a deadline of 10. -/
theorem waitTransaction_poll_witness :
    WaitTransaction 0 10 [⟨4, .tick (.ok (some [("epoch", .number "7")]))⟩]
      = { polls := [4], ended := some (4, (some [("epoch", .number "7")], none)) } :=
  (waitTransaction_poll 0 10 4 (.ok (some [("epoch", .number "7")])) [] (by decide)).2.1
    [("epoch", .number "7")] ⟨rfl, Or.inr ⟨.number "7", rfl, by simp⟩⟩

theorem waitLoop_polls (deadline : Int) (events : List Event) :
    ∀ p ∈ (waitLoop deadline events).polls, ¬ p > deadline := by
  induction events with
  | nil => intro p hp; simp [waitLoop] at hp
  | cons e rest ih =>
    intro p hp
    simp only [waitLoop] at hp
    split at hp
    · simp at hp
    · split at hp
      · simp at hp
      · rename_i hnot
        split at hp
        · simp only [List.mem_singleton] at hp
          rw [hp]; exact hnot
        · simp only [List.mem_cons] at hp
          rcases hp with hp | hp
          · rw [hp]; exact hnot
          · exact ih p hp

theorem waitLoop_timeout (deadline : Int) (events : List Event) (t : Int)
    (h : (waitLoop deadline events).ended = some (t, (none, some .timeout))) : t > deadline := by
  induction events with
  | nil => simp [waitLoop] at h
  | cons e rest ih =>
    simp only [waitLoop] at h
    split at h
    · simp at h
    · split at h
      · rename_i hafter
        simp only [Option.some.injEq, Prod.mk.injEq, and_true] at h
        rw [← h]; exact hafter
      · split at h
        · simp at h
        · exact ih h

/-- C9: in every run of `WaitTransaction`, whatever the start time, the
timeout and the events, the ledger is polled only at ticks whose clock reading
is not after start + timeout, and a run that returns the timeout error returns
it at a clock reading strictly after start + timeout. -/
theorem waitTransaction_timeout_after_deadline (start timeout : Int) (events : List Event) :
    (∀ p ∈ (WaitTransaction start timeout events).polls, ¬ p > start + timeout) ∧
    (∀ t : Int, (WaitTransaction start timeout events).ended = some (t, (none, some .timeout)) →
      t > start + timeout) :=
  ⟨waitLoop_polls _ _, fun t h => waitLoop_timeout _ _ t h⟩

/-- C9 at a ledger that stays pending over the ticks 2, 10 and 12 of a wait of
10 from 0: polls at 2 and 10, timeout at 12. -/
theorem waitTransaction_timeout_after_deadline_witness :
    (WaitTransaction 0 10 [⟨2, .tick (.ok (some [("status", .string "pending")]))⟩,
        ⟨10, .tick (.error "rpc error")⟩, ⟨12, .tick (.ok none)⟩]).ended
      = some (12, (none, some .timeout)) ∧ (12 : Int) > 0 + 10 :=
  ⟨rfl, (waitTransaction_timeout_after_deadline 0 10
    [⟨2, .tick (.ok (some [("status", .string "pending")]))⟩,
      ⟨10, .tick (.error "rpc error")⟩, ⟨12, .tick (.ok none)⟩]).2 12 rfl⟩

/-! ### History and statistics -/

theorem fieldsChars_blank (s : List Char) (h : ∀ c ∈ s, isSpace c = true) :
    fieldsChars s [] = [] := by
  induction s with
  | nil => rfl
  | cons c s ih =>
    have hc : isSpace c = true := h c (List.mem_cons_self _ _)
    have hs : ∀ d ∈ s, isSpace d = true := fun d hd => h d (List.mem_cons_of_mem _ hd)
    simp [fieldsChars, hc, ih hs]

theorem fields_blank (s : String) (h : ∀ c ∈ s.data, isSpace c = true) : Fields s = [] := by
  simp [Fields, fieldsChars_blank s.data h]

theorem statsLoop_txCount (lib : HistoryLib) (address : String) :
    ∀ (history : List TransactionHistory) (stats result : WalletStats),
      statsLoop lib address history stats = .ret result → result.TxCount = stats.TxCount := by
  intro history
  induction history with
  | nil =>
    intro stats result h
    simp only [statsLoop, Outcome.ret.injEq] at h
    rw [h]
  | cons tx rest ih =>
    intro stats result h
    simp only [statsLoop] at h
    split at h
    · simp at h
    · split at h
      · simp at h
      · split_ifs at h
        · exact (ih _ _ h).trans rfl
        · exact (ih _ _ h).trans rfl
        · exact ih _ _ h

/-- Where `GetStats` returns totals, `TxCount` is the number of entries. -/
theorem getStats_txCount (lib : HistoryLib) (address : String)
    (listing : Except String (List (RecentTransaction × Except String (Option Record))))
    (history : List TransactionHistory) (stats : WalletStats)
    (hh : GetHistory lib listing = .ok history)
    (hs : GetStats lib address listing = .ret (.ok stats)) :
    stats.TxCount = history.length := by
  simp only [GetStats, hh] at hs
  split at hs
  · simp at hs
  · rename_i result hr
    simp only [Outcome.ret.injEq, Except.ok.injEq] at hs
    rw [← hs]
    exact statsLoop_txCount lib address history _ result hr

/-- C11 fails on the code: when the first entry `GetHistory` returns has an
amount that is empty or all white space, `strings.Fields` gives no field and
`GetStats` panics on the index 0 instead of returning totals. -/
theorem getStats_panics_on_blank_amount (lib : HistoryLib) (address : String)
    (listing : Except String (List (RecentTransaction × Except String (Option Record))))
    (entry : TransactionHistory) (rest : List TransactionHistory)
    (hh : GetHistory lib listing = .ok (entry :: rest))
    (hblank : ∀ c ∈ entry.Amount.data, isSpace c = true) :
    GetStats lib address listing
      = .panic "runtime error: index out of range [0] with length 0" := by
  simp [GetStats, hh, statsLoop, fields_blank entry.Amount hblank]

/-- C11 at a listing whose only transaction has the empty text as amount:
`GetHistory` returns one entry with that amount, and `GetStats` panics. -/
theorem getStats_panics_on_blank_amount_witness :
    GetHistory toyHistoryLib blankAmountListing
      = .ok [{ Hash := "h1", Epoch := 7, From := "octA", To := "octB", Amount := "",
               Timestamp := toyHistoryLib.formatValue (.number "1737273600"),
               Status := "confirmed" }] ∧
    GetStats toyHistoryLib "octA" blankAmountListing
      = .panic "runtime error: index out of range [0] with length 0" :=
  ⟨rfl, getStats_panics_on_blank_amount toyHistoryLib "octA" blankAmountListing _ []
    (show GetHistory toyHistoryLib blankAmountListing = .ok [_] from rfl)
    (by intro c hc; cases hc)⟩

end Octra
